import Mathlib

/-!
Shallow embedding of the `sim-prag` repository (src/level_prag_learn.py and
src/learn_pragmatics.py).

The Python code works with log-probabilities.  This development represents
every log-probability by its exponential, as an exact rational number:

* `x + log p`     becomes   `x * p`,
* `logsumexp v`   becomes   `v.sum`,
* `v - logsumexp v` (normalize_logprobs) becomes `v.map (fun x => x / v.sum)`,
* `softmax (alpha * u)` with `u` a vector of log-probabilities `log q` and
  `alpha = 3.0` becomes the normalization of `q ^ 3`, because
  `exp (3 * log q) = q ^ 3`.

The map `log` is a bijection between positive reals and reals, so every
identity between log-space expressions of the source corresponds exactly to
the identity between the rational probability-space expressions below.
Signals `'a', 'b', 'c'` are represented by their indices `0, 1, 2`.
A lexicon entry `'1'` is represented by `true`, an entry `'0'` by `false`.
Python exceptions (the `math domain error` of `log` on a non-positive
argument) are represented by `Option`: `none` is the raised error.
-/

namespace SimPrag

/-- Parameter `noise = 0.05` from the source. -/
def noise : ℚ := 1 / 20

/-- Parameter `meanings = [0, 1, 2]` from the source. -/
def meanings : List ℕ := [0, 1, 2]

/-- The signal alphabet `signals = ['a', 'b', 'c']`, as indices `[0, 1, 2]`. -/
def signalsIdx : List ℕ := [0, 1, 2]

/-- Parameter `num_signals = 3` from the source (`len(signals)`). -/
def num_signals : ℕ := 3

/-- A lexicon (a "language"): a binary matrix, rows = meanings, columns = signals. -/
abbrev Lexicon := List (List Bool)

/-- A hypothesis: a `(language, perspective, pragmatic_level)` triple. -/
abbrev Hypothesis := Lexicon × ℚ × ℕ

/-- Modelled from the spec: `utilities.normalize_logprobs` (the file
`utilities.py` is not under src/).  Spec 4.1: returns `v_i - logsumexp(v)`
for each entry; in the probability-space representation this is
`v_i / v.sum`. -/
def normalize_logprobs (v : List ℚ) : List ℚ :=
  v.map (fun x => x / v.sum)

/-- `calc_mental_state(perspective, context)` from the source: unnormalized
log weight `log (1 - |perspective - context[o]|)` for each referent `o`,
then `normalize_logprobs`.  In probability space the weight is
`1 - |perspective - context[o]|`; Python's `log` raises a domain error
(here: `none`) when some weight is not positive. -/
def calc_mental_state (perspective : ℚ) (context : List ℚ) : Option (List ℚ) :=
  let distribution := context.map (fun o => 1 - |perspective - o|)
  if ∀ w ∈ distribution, 0 < w then some (normalize_logprobs distribution)
  else none

/-- The list of signals usable for a meaning, given the lexicon row:
`[signals[s] for s in range(len(meanings)) if language[meaning][s] == '1']`. -/
def signals_for_r (row : List Bool) : List ℕ :=
  (List.range meanings.length).filter (fun s => row.getD s false)

/-- `list1_lit_spkr(signal, meaning, language, ref_distribution)` from the
source, in probability space: `ref + log x` becomes `ref * x`. -/
def list1_lit_spkr (signal meaning : ℕ) (language : Lexicon)
    (ref_distribution : List ℚ) : ℚ :=
  let sfr := signals_for_r (language.getD meaning [])
  let num_signals_for_r := sfr.length
  if signal ∈ sfr then
    let in_language : ℚ :=
      if num_signals_for_r = num_signals then 1 / num_signals_for_r
      else (1 - noise) / num_signals_for_r
    ref_distribution.getD meaning 0 * in_language
  else
    let out_of_language : ℚ := noise / ((num_signals : ℚ) - num_signals_for_r)
    ref_distribution.getD meaning 0 * out_of_language

/-- `list1_perception_matrix(language, ref_distribution)` from the source:
for each signal, the row of literal-listener values over meanings,
renormalized. -/
def list1_perception_matrix (language : Lexicon) (ref_distribution : List ℚ) :
    List (List ℚ) :=
  signalsIdx.map (fun s =>
    normalize_logprobs (meanings.map (fun m =>
      list1_lit_spkr s m language ref_distribution)))

/-- `scipy.special.softmax` on a utility vector `u`, represented here by the
vector of values `exp u`: `softmax(u)_s = exp u_s / sum_t exp u_t`. -/
def softmax (expUtility : List ℚ) : List ℚ :=
  expUtility.map (fun x => x / expUtility.sum)

/-- `spkr1_production_probs(meaning, language, mental_state)` from the source:
utility of signal `s` is `alpha * M[s][meaning]` with `M` the (log-space)
perception matrix and `alpha = 3.0`; softmax of the utilities.  Here the
perception-matrix entry is the probability `q`, and `exp (3 * log q) = q ^ 3`. -/
def spkr1_production_probs (meaning : ℕ) (language : Lexicon)
    (mental_state : List ℚ) : List ℚ :=
  let signal_utility := signalsIdx.map (fun s =>
    ((list1_perception_matrix language mental_state).getD s []).getD meaning 0 ^ 3)
  softmax signal_utility

/-- One iteration of the noisification loop inside `list2_spkr1`: the source
mutates `noisy_speaker_probs[s]` in place, first multiplying by `1 - noise`
(log-space: adding `log (1 - noise)`), then adding
`noise * (sum of the other entries of the current vector) / (num_signals - 1)`
(log-space: `logsumexp` with `log(noise) + logsumexp(others) - log(num_signals - 1)`). -/
def noisify_step (v : List ℚ) (s : ℕ) : List ℚ :=
  let v1 := v.set s (v.getD s 0 * (1 - noise))
  let other_signals :=
    ((List.range v1.length).filter (fun os => os ≠ s)).map (fun os => v1.getD os 0)
  v1.set s (v1.getD s 0 + noise * other_signals.sum / ((num_signals : ℚ) - 1))

/-- `list2_spkr1(signal, meaning, language, ref_distribution)` from the source:
the level-2 pragmatic listener.  The in-place loop over `s` is the fold of
`noisify_step` over `range (len speaker_probs)`. -/
def list2_spkr1 (signal meaning : ℕ) (language : Lexicon)
    (ref_distribution : List ℚ) : ℚ :=
  let speaker_probs := spkr1_production_probs meaning language ref_distribution
  let noisy_speaker_probs :=
    (List.range speaker_probs.length).foldl noisify_step speaker_probs
  ref_distribution.getD meaning 0 * noisy_speaker_probs.getD signal 0

/-- The body of the `update_posterior` loop of src/level_prag_learn.py for
hypothesis index `i`: compute the reference distribution from the
hypothesis's perspective, the listener value for every meaning (level 0:
`list1_lit_spkr`; level 1: `list2_spkr1`; the source leaves the log-space
zeros, i.e. probability 1, for any other level), marginalize (log-space
`logsumexp` = sum), and add to (multiply with) the posterior entry.
The hypothesis list is the module-global `hypotheses` of the source
(produced by the absent `hypotheses.generate_hypotheses`), taken here as a
parameter. -/
def hyp_update (hyps : List Hypothesis) (posterior : List ℚ) (signal : ℕ)
    (context : List ℚ) (i : ℕ) : Option ℚ := do
  let language := (hyps.getD i ([], 0, 0)).1
  let perspective := (hyps.getD i ([], 0, 0)).2.1
  let pragmatic_lvl := (hyps.getD i ([], 0, 0)).2.2
  let ref_distribution ← calc_mental_state perspective context
  let marginalize := meanings.map (fun m =>
    if pragmatic_lvl = 0 then list1_lit_spkr signal m language ref_distribution
    else if pragmatic_lvl = 1 then list2_spkr1 signal m language ref_distribution
    else 1)
  pure (posterior.getD i 0 * marginalize.sum)

/-- `update_posterior(posterior, signal, context)` from src/level_prag_learn.py:
fold every hypothesis's evidence into the posterior and renormalize. -/
def update_posterior (hyps : List Hypothesis) (posterior : List ℚ)
    (signal : ℕ) (context : List ℚ) : Option (List ℚ) := do
  let new_posterior ←
    (List.range posterior.length).mapM (hyp_update hyps posterior signal context)
  pure (normalize_logprobs new_posterior)

/-- The mutable state of the `update_posterior` loop: the input array
`posterior` and the freshly allocated array `new_posterior`
(`np.zeros(len(posterior))` in the source). -/
structure UPState where
  posterior : List ℚ
  new_posterior : List ℚ

/-- One iteration of the `update_posterior` loop, as an explicit state
transformer: it reads `posterior` and writes only `new_posterior[i]`. -/
def update_posterior_body (hyps : List Hypothesis) (signal : ℕ)
    (context : List ℚ) (st : UPState) (i : ℕ) : Option UPState := do
  let w ← hyp_update hyps st.posterior signal context i
  pure ⟨st.posterior, st.new_posterior.set i w⟩

/-- The full run of the `update_posterior` loop in the explicit-state model,
returning the final state. -/
def update_posterior_run (hyps : List Hypothesis) (posterior : List ℚ)
    (signal : ℕ) (context : List ℚ) : Option UPState :=
  (List.range posterior.length).foldlM (update_posterior_body hyps signal context)
    ⟨posterior, List.replicate posterior.length 0⟩

/-- Modelled from the spec: `utilities.wta` (the file `utilities.py` is not
under src/).  Spec 4.6: "pick the signal with the single highest lexicon
weight for that meaning (winner-take-all over the lexicon row)"; a random
tie-break among the indices attaining the maximum is modelled by the
explicit random input `tie`. -/
def wta (row : List Bool) (tie : ℕ) : ℕ :=
  let maxweight := row.foldr max false
  let candidates := (List.range row.length).filter (fun i => row.getD i false = maxweight)
  candidates.getD (tie % candidates.length) 0

/-- `produce(system, context)` from src/level_prag_learn.py, with the random
draws made explicit inputs: `meaningChoice` is the index sampled from the
mental state, `tie` the winner-take-all tie-break, `noiseFires` the result
of `random.random() < noise`, `substChoice` the uniform draw from
`other_signals`, and `sigChoice` the index sampled from
`spkr1_production_probs` at pragmatic level 1.  The source's loop
`for s in signals_for_r: other_signals = signals[np.where(signals != s)]`
reassigns `other_signals` from the original `signals` at every iteration,
which the fold below reproduces.  For a pragmatic level other than 0 and 1
the source raises `NameError` (`signal` unbound), here `none`. -/
def produce (system : Hypothesis) (context : List ℚ) (meaningChoice tie : ℕ)
    (noiseFires : Bool) (substChoice sigChoice : ℕ) : Option (ℕ × List ℚ) := do
  let language := system.1
  let perspective := system.2.1
  let pragmatic_lvl := system.2.2
  let mental_state ← calc_mental_state perspective context
  let _ := mental_state
  let meaning := meaningChoice
  if pragmatic_lvl = 0 then
    let signal := signalsIdx.getD (wta (language.getD meaning []) tie) 0
    let sfr := signals_for_r (language.getD meaning [])
    let num_signals_for_r := sfr.length
    if noiseFires ∧ num_signals_for_r ≠ 3 then
      let other_signals :=
        sfr.foldl (fun _ s => signalsIdx.filter (fun t => t ≠ s)) signalsIdx
      pure (other_signals.getD (substChoice % other_signals.length) 0, context)
    else
      pure (signal, context)
  else if pragmatic_lvl = 1 then
    let signal := signalsIdx.getD sigChoice 0
    if noiseFires then
      let other_signals := signalsIdx.filter (fun t => t ≠ signal)
      pure (other_signals.getD (substChoice % other_signals.length) 0, context)
    else
      pure (signal, context)
  else none

/-- Binary digits of `i`, most significant first: Python's `format(i, 'b')`,
with `'1'` as `true`.  Structural recursion on a fuel argument (`i / 2 < i`
guarantees `i` itself is enough fuel). -/
def bitsMSBAux : ℕ → ℕ → List Bool
  | 0, _ => []
  | fuel + 1, i =>
    if i = 0 then [] else bitsMSBAux fuel (i / 2) ++ [decide (i % 2 = 1)]

/-- Binary digits of `i`, most significant first (`format(i, 'b')` for `i ≥ 1`). -/
def bitsMSB (i : ℕ) : List Bool :=
  bitsMSBAux i i

/-- The padding loop `while len(string) < 9: string = '0' + string`. -/
def pad9 (s : List Bool) : List Bool :=
  List.replicate (9 - s.length) false ++ s

/-- The matrix built from a padded bit string:
`[[string[0..2]], [string[3..5]], [string[6..8]]]`. -/
def rowsOf (s : List Bool) : Lexicon :=
  [[s.getD 0 false, s.getD 1 false, s.getD 2 false],
   [s.getD 3 false, s.getD 4 false, s.getD 5 false],
   [s.getD 6 false, s.getD 7 false, s.getD 8 false]]

/-- The inline lexicon enumeration of src/learn_pragmatics.py lines 26-38:
for `i` in `range(2^9, 0, -1)`, keep the binary string if its length is at
least 7 (a signal for meaning 0), pad with leading zeros to length 9, and
keep it if `string[-3:] != '000'` and `string[3:-3] != '000'` (a signal for
meanings 2 and 1). -/
def langOfNat (i : ℕ) : Option Lexicon :=
  let string := bitsMSB i
  if 7 ≤ string.length then
    let padded := pad9 string
    if padded.drop (padded.length - 3) ≠ [false, false, false] ∧
        (padded.drop 3).take (padded.length - 6) ≠ [false, false, false] then
      some (rowsOf padded)
    else none
  else none

/-- The `languages` list itself: `range(2^9, 0, -1)` maps `j ↦ 512 - j`. -/
def languages : List Lexicon :=
  ((List.range 512).map (fun j => 512 - j)).filterMap langOfNat

/-- The noisy production vector exactly as claimed by the spec for the
level-2 listener: for each signal `s`,
`logsumexp([log(1-noise) + p[s], log(noise) + logsumexp(p[others]) - log(num_signals-1)])`
with `p` the raw (un-noisified) output of `spkr1_production_probs` in every
term; in probability space
`(1-noise) * p[s] + noise * (sum of p over the other signals) / (num_signals - 1)`. -/
def rawNoisy (p : List ℚ) : List ℚ :=
  (List.range p.length).map (fun s =>
    (1 - noise) * p.getD s 0 +
      noise * (((List.range p.length).filter (fun os => os ≠ s)).map
        (fun os => p.getD os 0)).sum / ((num_signals : ℚ) - 1))

/-! ### Generic list helpers -/

theorem sum_map_div (l : List ℚ) (c : ℚ) :
    (l.map (fun x => x / c)).sum = l.sum / c := by
  induction l with
  | nil => simp
  | cons a t ih => simp [ih, add_div]

theorem sum_map_mul (l : List ℚ) (c : ℚ) :
    (l.map (fun x => x * c)).sum = l.sum * c := by
  induction l with
  | nil => simp
  | cons a t ih => simp [ih, add_mul]

theorem getD_nonneg {l : List ℚ} (h : ∀ x ∈ l, 0 ≤ x) (n : ℕ) :
    0 ≤ l.getD n 0 := by
  rcases Nat.lt_or_ge n l.length with hn | hn
  · rw [List.getD_eq_getElem?_getD, List.getElem?_eq_getElem hn, Option.getD_some]
    exact h _ (List.getElem_mem hn)
  · rw [List.getD_eq_getElem?_getD, List.getElem?_eq_none hn, Option.getD_none]

theorem getD_pos {l : List ℚ} (h : ∀ x ∈ l, 0 < x) {n : ℕ} (hn : n < l.length) :
    0 < l.getD n 0 := by
  rw [List.getD_eq_getElem?_getD, List.getElem?_eq_getElem hn, Option.getD_some]
  exact h _ (List.getElem_mem hn)

theorem sum_pos_of_mem {l : List ℚ} (h0 : ∀ x ∈ l, 0 ≤ x) {x : ℚ} (hx : x ∈ l)
    (hxp : 0 < x) : 0 < l.sum :=
  lt_of_lt_of_le hxp (List.single_le_sum h0 x hx)

/-! ### Properties of normalize_logprobs -/

theorem normalize_logprobs_length (v : List ℚ) :
    (normalize_logprobs v).length = v.length := by
  simp [normalize_logprobs]

theorem normalize_logprobs_sum (v : List ℚ) (h : v.sum ≠ 0) :
    (normalize_logprobs v).sum = 1 := by
  rw [normalize_logprobs, sum_map_div, div_self h]

theorem normalize_logprobs_scale (v : List ℚ) (c : ℚ) (hc : c ≠ 0) :
    normalize_logprobs (v.map (fun x => x * c)) = normalize_logprobs v := by
  unfold normalize_logprobs
  rw [List.map_map, sum_map_mul]
  have hfun : ((fun x => x / (v.sum * c)) ∘ fun x => x * c) =
      fun x => x / v.sum := by
    funext x
    simp only [Function.comp_apply]
    rw [mul_div_mul_right _ _ hc]
  rw [hfun]

theorem normalize_logprobs_nonneg (v : List ℚ) (h0 : ∀ x ∈ v, 0 ≤ x)
    (hs : 0 ≤ v.sum) : ∀ x ∈ normalize_logprobs v, 0 ≤ x := by
  intro x hx
  rcases List.mem_map.mp hx with ⟨a, ha, rfl⟩
  exact div_nonneg (h0 a ha) hs

theorem normalize_logprobs_pos (v : List ℚ) (h0 : ∀ x ∈ v, 0 < x) (hne : v ≠ []) :
    ∀ x ∈ normalize_logprobs v, 0 < x := by
  intro x hx
  rcases List.mem_map.mp hx with ⟨a, ha, rfl⟩
  exact div_pos (h0 a ha) (List.sum_pos v h0 hne)

/-! ### Option-monad helpers -/

theorem mapM_eq_map {α β : Type} (f : α → Option β) (g : α → β) (l : List α)
    (h : ∀ a ∈ l, f a = some (g a)) : l.mapM f = some (l.map g) := by
  induction l with
  | nil => rfl
  | cons a t ih =>
    rw [List.mapM_cons, h a (List.mem_cons_self a t),
      ih (fun x hx => h x (List.mem_cons_of_mem a hx))]
    rfl

theorem exists_of_mapM_eq_some {α β : Type} (f : α → Option β) (l : List α)
    (ys : List β) (h : l.mapM f = some ys) : ∀ a ∈ l, ∃ y, f a = some y := by
  induction l generalizing ys with
  | nil => intro a ha; exact absurd ha (List.not_mem_nil a)
  | cons a t ih =>
    rw [List.mapM_cons] at h
    intro x hx
    cases hfa : f a with
    | none => rw [hfa] at h; exact absurd h (by simp)
    | some y =>
      rw [hfa] at h
      cases hmt : t.mapM f with
      | none => rw [hmt] at h; exact absurd h (by simp)
      | some bs =>
        rcases List.mem_cons.mp hx with h1 | h2
        · exact ⟨y, h1 ▸ hfa⟩
        · exact ih bs hmt x h2

/-! ### Properties of calc_mental_state -/

theorem calc_mental_state_eq_some {p : ℚ} {ctx : List ℚ} {r : List ℚ}
    (h : calc_mental_state p ctx = some r) :
    (∀ c ∈ ctx, |p - c| < 1) ∧
      r = normalize_logprobs (ctx.map (fun o => 1 - |p - o|)) := by
  simp only [calc_mental_state] at h
  split at h
  · next hall =>
    refine ⟨fun c hc => ?_, (Option.some.injEq _ _).mp h |>.symm⟩
    have := hall (1 - |p - c|) (List.mem_map.mpr ⟨c, hc, rfl⟩)
    linarith
  · exact absurd h (by simp)

theorem calc_mental_state_eq_none {p : ℚ} {ctx : List ℚ} :
    calc_mental_state p ctx = none ↔ ∃ c ∈ ctx, 1 ≤ |p - c| := by
  simp only [calc_mental_state]
  split
  · next hall =>
    simp only [reduceCtorEq, false_iff, not_exists, not_and, not_le]
    intro c hc
    have := hall (1 - |p - c|) (List.mem_map.mpr ⟨c, hc, rfl⟩)
    linarith
  · next hall =>
    simp only [true_iff]
    push_neg at hall
    rcases hall with ⟨w, hw, hw0⟩
    rcases List.mem_map.mp hw with ⟨c, hc, rfl⟩
    exact ⟨c, hc, by linarith⟩

theorem calc_mental_state_entries {p : ℚ} {ctx : List ℚ} {r : List ℚ}
    (h : calc_mental_state p ctx = some r) :
    r.length = ctx.length ∧ (∀ x ∈ r, 0 ≤ x) ∧
      (ctx ≠ [] → 0 < r.getD 0 0 ∧ r.sum = 1) := by
  rcases calc_mental_state_eq_some h with ⟨hall, rfl⟩
  have hw : ∀ w ∈ ctx.map (fun o => 1 - |p - o|), 0 < w := by
    intro w hw
    rcases List.mem_map.mp hw with ⟨c, hc, rfl⟩
    have := hall c hc
    linarith
  refine ⟨by simp [normalize_logprobs_length], ?_, fun hne => ⟨?_, ?_⟩⟩
  · exact normalize_logprobs_nonneg _ (fun x hx => le_of_lt (hw x hx))
      (List.sum_nonneg (fun x hx => le_of_lt (hw x hx)))
  · have hlen : 0 < (normalize_logprobs (ctx.map (fun o => 1 - |p - o|))).length := by
      rw [normalize_logprobs_length, List.length_map]
      exact List.length_pos.mpr hne
    exact getD_pos (normalize_logprobs_pos _ hw (by simpa using hne)) hlen
  · exact normalize_logprobs_sum _
      (ne_of_gt (List.sum_pos _ hw (by simpa using hne)))

/-- The per-hypothesis marginal likelihood of an observation `(signal, context)`
given the reference distribution: the log-space `logsumexp` over meanings of
the listener value selected by the pragmatic level (probability-space sum). -/
def likelihood (h : Hypothesis) (signal : ℕ) (ref : List ℚ) : ℚ :=
  (meanings.map (fun m =>
    if h.2.2 = 0 then list1_lit_spkr signal m h.1 ref
    else if h.2.2 = 1 then list2_spkr1 signal m h.1 ref
    else 1)).sum

theorem hyp_update_eq (hyps : List Hypothesis) (posterior : List ℚ)
    (signal : ℕ) (context : List ℚ) (i : ℕ) (ref : List ℚ)
    (h : calc_mental_state (hyps.getD i ([], 0, 0)).2.1 context = some ref) :
    hyp_update hyps posterior signal context i =
      some (posterior.getD i 0 * likelihood (hyps.getD i ([], 0, 0)) signal ref) := by
  simp only [hyp_update, h, likelihood]
  rfl

theorem hyp_update_some {hyps : List Hypothesis} {posterior : List ℚ}
    {signal : ℕ} {context : List ℚ} {i : ℕ} {w : ℚ}
    (h : hyp_update hyps posterior signal context i = some w) :
    ∃ ref, calc_mental_state (hyps.getD i ([], 0, 0)).2.1 context = some ref ∧
      w = posterior.getD i 0 * likelihood (hyps.getD i ([], 0, 0)) signal ref := by
  cases hc : calc_mental_state (hyps.getD i ([], 0, 0)).2.1 context with
  | none =>
    simp only [hyp_update, hc] at h
    exact absurd h (by simp [Bind.bind, Option.bind])
  | some ref =>
    rw [hyp_update_eq hyps posterior signal context i ref hc] at h
    exact ⟨ref, rfl, ((Option.some.injEq _ _).mp h).symm⟩

theorem update_posterior_eq (hyps : List Hypothesis) (posterior : List ℚ)
    (signal : ℕ) (context : List ℚ) (refs : ℕ → List ℚ)
    (href : ∀ i < posterior.length,
      calc_mental_state (hyps.getD i ([], 0, 0)).2.1 context = some (refs i)) :
    update_posterior hyps posterior signal context =
      some (normalize_logprobs ((List.range posterior.length).map (fun i =>
        posterior.getD i 0 *
          likelihood (hyps.getD i ([], 0, 0)) signal (refs i)))) := by
  unfold update_posterior
  rw [mapM_eq_map _ (fun i => posterior.getD i 0 *
      likelihood (hyps.getD i ([], 0, 0)) signal (refs i)) _
      (fun i hi => hyp_update_eq hyps posterior signal context i (refs i)
        (href i (List.mem_range.mp hi)))]
  rfl

/-! ### The explicit-state model: the input posterior is never written -/

theorem foldlM_body_preserves (hyps : List Hypothesis) (signal : ℕ)
    (context : List ℚ) (l : List ℕ) (st st2 : UPState)
    (h : l.foldlM (update_posterior_body hyps signal context) st = some st2) :
    st2.posterior = st.posterior := by
  induction l generalizing st with
  | nil =>
    rw [List.foldlM_nil] at h
    rw [← (Option.some.injEq _ _).mp h]
  | cons i t ih =>
    rw [List.foldlM_cons] at h
    cases hb : update_posterior_body hyps signal context st i with
    | none => rw [hb] at h; exact absurd h (by simp [Bind.bind, Option.bind])
    | some st1 =>
      rw [hb] at h
      have h1 : t.foldlM (update_posterior_body hyps signal context) st1 = some st2 := h
      have hp1 : st1.posterior = st.posterior := by
        unfold update_posterior_body at hb
        cases hw : hyp_update hyps st.posterior signal context i with
        | none => rw [hw] at hb; exact absurd hb (by simp [Bind.bind, Option.bind])
        | some w =>
          rw [hw] at hb
          rw [← (Option.some.injEq _ _).mp hb]
      rw [ih st1 h1, hp1]

/-! ### Positivity of the listener values -/

theorem getD_of_ge {α : Type} (l : List α) (d : α) {n : ℕ} (h : l.length ≤ n) :
    l.getD n d = d := by
  rw [List.getD_eq_getElem?_getD, List.getElem?_eq_none h, Option.getD_none]

theorem mem_signals_for_r {row : List Bool} {s : ℕ} :
    s ∈ signals_for_r row ↔ s < 3 ∧ row.getD s false = true := by
  simp [signals_for_r, meanings, List.mem_filter, List.mem_range]

theorem signals_for_r_length_le (row : List Bool) :
    (signals_for_r row).length ≤ 3 := by
  unfold signals_for_r
  refine le_trans (List.length_filter_le _ _) ?_
  simp [meanings]

theorem list1_nonneg (signal meaning : ℕ) (language : Lexicon) (ref : List ℚ)
    (h : 0 ≤ ref.getD meaning 0) : 0 ≤ list1_lit_spkr signal meaning language ref := by
  have hk : ((signals_for_r (language.getD meaning [])).length : ℚ) ≤ 3 := by
    exact_mod_cast signals_for_r_length_le (language.getD meaning [])
  simp only [list1_lit_spkr]
  split_ifs
  · exact mul_nonneg h (by positivity)
  · refine mul_nonneg h (div_nonneg (by norm_num [noise]) (by positivity))
  · refine mul_nonneg h (div_nonneg (by norm_num [noise]) ?_)
    rw [num_signals]
    push_cast
    linarith

theorem list1_pos (signal meaning : ℕ) (language : Lexicon) (ref : List ℚ)
    (hsig : signal < 3) (h : 0 < ref.getD meaning 0) :
    0 < list1_lit_spkr signal meaning language ref := by
  simp only [list1_lit_spkr]
  split_ifs with hmem hk
  · have hk0 : 0 < ((signals_for_r (language.getD meaning [])).length : ℚ) := by
      exact_mod_cast List.length_pos.mpr (List.ne_nil_of_mem hmem)
    exact mul_pos h (div_pos one_pos hk0)
  · have hk0 : 0 < ((signals_for_r (language.getD meaning [])).length : ℚ) := by
      exact_mod_cast List.length_pos.mpr (List.ne_nil_of_mem hmem)
    exact mul_pos h (div_pos (by norm_num [noise]) hk0)
  · have hklt : (signals_for_r (language.getD meaning [])).length < 3 := by
      rcases Nat.lt_or_ge (signals_for_r (language.getD meaning [])).length 3 with hlt | hge
      · exact hlt
      · exfalso
        have hk3 : (signals_for_r (language.getD meaning [])).length = 3 :=
          le_antisymm (signals_for_r_length_le _) hge
        have hlenr : (List.range meanings.length).length = 3 := by
          simp [meanings]
        have hk3' : ((List.range meanings.length).filter
            (fun s => (language.getD meaning []).getD s false)).length =
              (List.range meanings.length).length := by
          rw [hlenr]
          exact hk3
        have hall := List.filter_length_eq_length.mp hk3'
        have hmemr : signal ∈ List.range meanings.length := by
          rw [List.mem_range]
          simpa [meanings] using hsig
        have hmem2 : signal ∈ signals_for_r (language.getD meaning []) := by
          rw [mem_signals_for_r]
          exact ⟨hsig, by simpa using hall signal hmemr⟩
        exact hmem hmem2
    refine mul_pos h (div_pos (by norm_num [noise]) ?_)
    have : ((signals_for_r (language.getD meaning [])).length : ℚ) < 3 := by
      exact_mod_cast hklt
    rw [num_signals]
    push_cast
    linarith

theorem perception_entry (language : Lexicon) (ref : List ℚ) {s : ℕ} (hs : s < 3) :
    (list1_perception_matrix language ref).getD s [] =
      normalize_logprobs (meanings.map (fun m => list1_lit_spkr s m language ref)) := by
  interval_cases s <;> rfl

theorem perception_nonneg (language : Lexicon) (ref : List ℚ)
    (h : ∀ m, 0 ≤ ref.getD m 0) (s m : ℕ) :
    0 ≤ ((list1_perception_matrix language ref).getD s []).getD m 0 := by
  rcases Nat.lt_or_ge s 3 with hs | hs
  · rw [perception_entry language ref hs]
    refine getD_nonneg (normalize_logprobs_nonneg _ ?_ (List.sum_nonneg ?_)) m
    all_goals
      intro x hx
      rcases List.mem_map.mp hx with ⟨mm, _, rfl⟩
      exact list1_nonneg _ _ _ _ (h mm)
  · have hlen : (list1_perception_matrix language ref).length ≤ s := by
      simp only [list1_perception_matrix, signalsIdx, List.length_map,
        List.length_cons, List.length_nil]
      omega
    rw [getD_of_ge _ _ hlen, getD_of_ge _ _ (Nat.zero_le m)]

theorem perception_pos_col0 (language : Lexicon) (ref : List ℚ)
    (h0 : 0 < ref.getD 0 0) (hnn : ∀ m, 0 ≤ ref.getD m 0) {s : ℕ} (hs : s < 3) :
    0 < ((list1_perception_matrix language ref).getD s []).getD 0 0 := by
  rw [perception_entry language ref hs]
  have hpos : 0 < list1_lit_spkr s 0 language ref := list1_pos s 0 language ref hs h0
  have hnn1 : 0 ≤ list1_lit_spkr s 1 language ref := list1_nonneg _ _ _ _ (hnn 1)
  have hnn2 : 0 ≤ list1_lit_spkr s 2 language ref := list1_nonneg _ _ _ _ (hnn 2)
  simp only [meanings, List.map_cons, List.map_nil, normalize_logprobs,
    List.sum_cons, List.sum_nil, List.getD_cons_zero]
  have hsum : 0 < list1_lit_spkr s 0 language ref +
      (list1_lit_spkr s 1 language ref + (list1_lit_spkr s 2 language ref + 0)) := by
    linarith
  exact div_pos hpos hsum

theorem softmax_pos (u : List ℚ) (h : ∀ x ∈ u, 0 < x) (hne : u ≠ []) :
    ∀ x ∈ softmax u, 0 < x := by
  intro x hx
  rcases List.mem_map.mp hx with ⟨a, ha, rfl⟩
  exact div_pos (h a ha) (List.sum_pos u h hne)

theorem softmax_nonneg (u : List ℚ) (h : ∀ x ∈ u, 0 ≤ x) :
    ∀ x ∈ softmax u, 0 ≤ x := by
  intro x hx
  rcases List.mem_map.mp hx with ⟨a, ha, rfl⟩
  exact div_nonneg (h a ha) (List.sum_nonneg h)

theorem spkr1_length (meaning : ℕ) (language : Lexicon) (ref : List ℚ) :
    (spkr1_production_probs meaning language ref).length = 3 := by
  simp [spkr1_production_probs, softmax, signalsIdx]

theorem spkr1_nonneg (meaning : ℕ) (language : Lexicon) (ref : List ℚ)
    (h : ∀ m, 0 ≤ ref.getD m 0) :
    ∀ x ∈ spkr1_production_probs meaning language ref, 0 ≤ x := by
  simp only [spkr1_production_probs]
  refine softmax_nonneg _ ?_
  intro x hx
  rcases List.mem_map.mp hx with ⟨s, _, rfl⟩
  exact pow_nonneg (perception_nonneg language ref h s meaning) 3

theorem spkr1_pos (language : Lexicon) (ref : List ℚ)
    (h0 : 0 < ref.getD 0 0) (hnn : ∀ m, 0 ≤ ref.getD m 0) :
    ∀ x ∈ spkr1_production_probs 0 language ref, 0 < x := by
  simp only [spkr1_production_probs]
  refine softmax_pos _ ?_ (by simp [signalsIdx])
  intro x hx
  rcases List.mem_map.mp hx with ⟨s, hs, rfl⟩
  have hs3 : s < 3 := by
    simp only [signalsIdx, List.mem_cons, List.not_mem_nil] at hs
    rcases hs with rfl | rfl | rfl | hf
    · omega
    · omega
    · omega
    · exact absurd hf (by simp)
  exact pow_pos (perception_pos_col0 language ref h0 hnn hs3) 3

theorem noisify_step_length (v : List ℚ) (s : ℕ) :
    (noisify_step v s).length = v.length := by
  simp [noisify_step]

theorem noisify_step_nonneg (v : List ℚ) (s : ℕ) (h : ∀ x ∈ v, 0 ≤ x) :
    ∀ x ∈ noisify_step v s, 0 ≤ x := by
  have h1 : ∀ x ∈ v.set s (v.getD s 0 * (1 - noise)), 0 ≤ x := by
    intro y hy
    rcases List.mem_or_eq_of_mem_set hy with hy1 | rfl
    · exact h y hy1
    · exact mul_nonneg (getD_nonneg h s) (by norm_num [noise])
  intro x hx
  simp only [noisify_step] at hx
  rcases List.mem_or_eq_of_mem_set hx with hx1 | rfl
  · exact h1 x hx1
  · refine add_nonneg (getD_nonneg h1 s) ?_
    refine div_nonneg (mul_nonneg (by norm_num [noise]) (List.sum_nonneg ?_))
      (by norm_num [num_signals])
    intro y hy
    rcases List.mem_map.mp hy with ⟨os, _, rfl⟩
    exact getD_nonneg h1 os

theorem noisify_step_pos (v : List ℚ) (s : ℕ) (hs : s < v.length)
    (h : ∀ x ∈ v, 0 < x) : ∀ x ∈ noisify_step v s, 0 < x := by
  have h1 : ∀ x ∈ v.set s (v.getD s 0 * (1 - noise)), 0 < x := by
    intro y hy
    rcases List.mem_or_eq_of_mem_set hy with hy1 | rfl
    · exact h y hy1
    · exact mul_pos (getD_pos h hs) (by norm_num [noise])
  intro x hx
  simp only [noisify_step] at hx
  rcases List.mem_or_eq_of_mem_set hx with hx1 | rfl
  · exact h1 x hx1
  · refine add_pos_of_pos_of_nonneg (getD_pos h1 (by simpa using hs)) ?_
    refine div_nonneg (mul_nonneg (by norm_num [noise]) (List.sum_nonneg ?_))
      (by norm_num [num_signals])
    intro y hy
    rcases List.mem_map.mp hy with ⟨os, _, rfl⟩
    exact getD_nonneg (fun z hz => le_of_lt (h1 z hz)) os

theorem foldl_noisify_length (l : List ℕ) (v : List ℚ) :
    (l.foldl noisify_step v).length = v.length := by
  induction l generalizing v with
  | nil => rfl
  | cons a t ih => rw [List.foldl_cons, ih, noisify_step_length]

theorem foldl_noisify_nonneg (l : List ℕ) (v : List ℚ) (h : ∀ x ∈ v, 0 ≤ x) :
    ∀ x ∈ l.foldl noisify_step v, 0 ≤ x := by
  induction l generalizing v with
  | nil => exact h
  | cons a t ih => exact ih _ (noisify_step_nonneg v a h)

theorem foldl_noisify_pos (l : List ℕ) (v : List ℚ)
    (hl : ∀ s ∈ l, s < v.length) (h : ∀ x ∈ v, 0 < x) :
    ∀ x ∈ l.foldl noisify_step v, 0 < x := by
  induction l generalizing v with
  | nil => exact h
  | cons a t ih =>
    refine ih _ (fun s hs => ?_) (noisify_step_pos v a (hl a (by simp)) h)
    rw [noisify_step_length]
    exact hl s (List.mem_cons_of_mem a hs)

theorem list2_nonneg (signal meaning : ℕ) (language : Lexicon) (ref : List ℚ)
    (h : ∀ m, 0 ≤ ref.getD m 0) : 0 ≤ list2_spkr1 signal meaning language ref := by
  simp only [list2_spkr1]
  exact mul_nonneg (h meaning)
    (getD_nonneg (foldl_noisify_nonneg _ _ (spkr1_nonneg meaning language ref h)) signal)

theorem list2_pos (signal : ℕ) (language : Lexicon) (ref : List ℚ)
    (hsig : signal < 3) (h0 : 0 < ref.getD 0 0) (hnn : ∀ m, 0 ≤ ref.getD m 0) :
    0 < list2_spkr1 signal 0 language ref := by
  simp only [list2_spkr1]
  refine mul_pos h0 (getD_pos ?_ ?_)
  · refine foldl_noisify_pos _ _ (fun s hs => List.mem_range.mp hs)
      (spkr1_pos language ref h0 hnn)
  · rw [foldl_noisify_length, spkr1_length]
    exact hsig

theorem likelihood_nonneg (h : Hypothesis) (signal : ℕ) (ref : List ℚ)
    (hnn : ∀ m, 0 ≤ ref.getD m 0) : 0 ≤ likelihood h signal ref := by
  unfold likelihood
  refine List.sum_nonneg ?_
  intro x hx
  rcases List.mem_map.mp hx with ⟨m, _, rfl⟩
  split_ifs
  · exact list1_nonneg _ _ _ _ (hnn m)
  · exact list2_nonneg _ _ _ _ hnn
  · norm_num

theorem likelihood_pos (h : Hypothesis) (signal : ℕ) (ref : List ℚ)
    (hsig : signal < 3) (h0 : 0 < ref.getD 0 0) (hnn : ∀ m, 0 ≤ ref.getD m 0) :
    0 < likelihood h signal ref := by
  unfold likelihood
  refine sum_pos_of_mem ?_
    (x := if h.2.2 = 0 then list1_lit_spkr signal 0 h.1 ref
      else if h.2.2 = 1 then list2_spkr1 signal 0 h.1 ref else 1) ?_ ?_
  · intro x hx
    rcases List.mem_map.mp hx with ⟨m, _, rfl⟩
    split_ifs
    · exact list1_nonneg _ _ _ _ (hnn m)
    · exact list2_nonneg _ _ _ _ hnn
    · norm_num
  · exact List.mem_map.mpr ⟨0, by simp [meanings], rfl⟩
  · split_ifs
    · exact list1_pos _ _ _ _ hsig h0
    · exact list2_pos _ _ _ hsig h0 hnn
    · norm_num

/-! ### The lexicon enumeration -/

/-- Row-major binary code of a lexicon (the number `i` it was generated from). -/
def lexCode (L : Lexicon) : ℕ :=
  L.flatten.foldl (fun acc b => 2 * acc + (if b then 1 else 0)) 0

/-- Boolean check that a list of naturals is strictly decreasing. -/
def strictDecreasing : List ℕ → Bool
  | [] => true
  | [_] => true
  | a :: b :: t => (decide (b < a)) && strictDecreasing (b :: t)

theorem strictDecreasing_pairwise : ∀ l : List ℕ, strictDecreasing l = true →
    l.Pairwise (fun a b => b < a)
  | [], _ => List.Pairwise.nil
  | [a], _ => by simp
  | a :: b :: t, h => by
    simp only [strictDecreasing, Bool.and_eq_true, decide_eq_true_eq] at h
    have hp := strictDecreasing_pairwise (b :: t) h.2
    refine List.Pairwise.cons ?_ hp
    intro x hx
    rcases List.mem_cons.mp hx with rfl | hxt
    · exact h.1
    · have hxb : x < b := (List.pairwise_cons.mp hp).1 x hxt
      omega

theorem strictDecreasing_nodup (l : List ℕ) (h : strictDecreasing l = true) :
    l.Nodup :=
  List.Pairwise.imp (fun hlt => by omega) (strictDecreasing_pairwise l h)

set_option maxRecDepth 20000 in
theorem languages_codes_decreasing :
    strictDecreasing (languages.map lexCode) = true := by decide

theorem languages_nodup : languages.Nodup :=
  List.Nodup.of_map lexCode
    (strictDecreasing_nodup _ languages_codes_decreasing)

set_option maxRecDepth 20000 in
theorem languages_length : languages.length = 343 := by decide

set_option maxRecDepth 20000 in
theorem languages_shape : ∀ L ∈ languages,
    L.length = 3 ∧ ∀ row ∈ L, row.length = 3 ∧ row.any id = true := by decide

set_option maxRecDepth 20000 in
theorem langOfNat_complete : ∀ a b c d e f g h i : Bool,
    (a || b || c) = true → (d || e || f) = true → (g || h || i) = true →
    langOfNat (lexCode [[a, b, c], [d, e, f], [g, h, i]]) =
        some [[a, b, c], [d, e, f], [g, h, i]] ∧
      1 ≤ lexCode [[a, b, c], [d, e, f], [g, h, i]] ∧
      lexCode [[a, b, c], [d, e, f], [g, h, i]] ≤ 512 := by
  decide

theorem mem_countdown {c : ℕ} (h1 : 1 ≤ c) (h2 : c ≤ 512) :
    c ∈ (List.range 512).map (fun j => 512 - j) :=
  List.mem_map.mpr ⟨512 - c, List.mem_range.mpr (by omega), by omega⟩

/-! ### The claims -/

/-- C9: the inline lexicon enumeration produces exactly the valid 3x3 binary
lexicons: 343 matrices, no duplicates, every produced matrix is 3x3 with at
least one `true` per row, and every 3x3 binary matrix with at least one
`true` per row is produced. -/
theorem claim_C9 :
    languages.length = 343 ∧ languages.Nodup ∧
    (∀ L ∈ languages, L.length = 3 ∧ ∀ row ∈ L, row.length = 3 ∧ row.any id = true) ∧
    (∀ a b c d e f g h i : Bool,
      (a || b || c) = true → (d || e || f) = true → (g || h || i) = true →
      [[a, b, c], [d, e, f], [g, h, i]] ∈ languages) := by
  refine ⟨languages_length, languages_nodup, languages_shape, ?_⟩
  intro a b c d e f g h i h1 h2 h3
  have hc := langOfNat_complete a b c d e f g h i h1 h2 h3
  exact List.mem_filterMap.mpr ⟨lexCode [[a, b, c], [d, e, f], [g, h, i]],
    mem_countdown hc.2.1 hc.2.2, hc.1⟩

/-- C9 witness: the identity lexicon satisfies the row conditions and is in
the enumerated list. -/
theorem claim_C9_witness :
    (true || false || false) = true ∧
      [[true, false, false], [false, true, false], [false, false, true]] ∈ languages :=
  ⟨rfl, claim_C9.2.2.2 true false false false true false false false true
    rfl rfl rfl⟩

/-- C3: the literal listener returns `ref[meaning] * (1 - noise) / k` when the
signal is usable and `k < 3`, `ref[meaning] * (1 / k)` when the signal is
usable and `k = 3`, and `ref[meaning] * noise / (3 - k)` when the signal is
not usable, where `k` is the number of usable signals of the meaning's row
(log space: the same with `+ log` in place of `* ·`). -/
theorem claim_C3 (signal meaning : ℕ) (language : Lexicon)
    (ref_distribution : List ℚ) (hsig : signal < 3)
    (hrow : 1 ≤ (signals_for_r (language.getD meaning [])).length) :
    ((language.getD meaning []).getD signal false = true →
      ((signals_for_r (language.getD meaning [])).length < 3 →
        list1_lit_spkr signal meaning language ref_distribution =
          ref_distribution.getD meaning 0 *
            ((1 - noise) / ((signals_for_r (language.getD meaning [])).length : ℚ))) ∧
      ((signals_for_r (language.getD meaning [])).length = 3 →
        list1_lit_spkr signal meaning language ref_distribution =
          ref_distribution.getD meaning 0 *
            (1 / ((signals_for_r (language.getD meaning [])).length : ℚ)))) ∧
    ((language.getD meaning []).getD signal false = false →
      list1_lit_spkr signal meaning language ref_distribution =
        ref_distribution.getD meaning 0 *
          (noise / (3 - ((signals_for_r (language.getD meaning [])).length : ℚ)))) := by
  constructor
  · intro hu
    have hmem : signal ∈ signals_for_r (language.getD meaning []) :=
      mem_signals_for_r.mpr ⟨hsig, hu⟩
    constructor
    · intro hlt
      simp only [list1_lit_spkr, if_pos hmem]
      rw [if_neg (by rw [num_signals]; omega)]
    · intro heq
      simp only [list1_lit_spkr, if_pos hmem]
      rw [if_pos (by rw [num_signals]; omega)]
  · intro hnu
    have hmem : signal ∉ signals_for_r (language.getD meaning []) := by
      intro hm
      rw [mem_signals_for_r, hnu] at hm
      exact Bool.false_ne_true hm.2
    simp only [list1_lit_spkr, if_neg hmem, num_signals]
    norm_num

/-- C3 witness: instantiation at the identity lexicon, signal 0, meaning 0. -/
theorem claim_C3_witness :
    (0 : ℕ) < 3 ∧
    1 ≤ (signals_for_r (([[true, false, false], [false, true, false],
        [false, false, true]] : Lexicon).getD 0 [])).length ∧
    (((([[true, false, false], [false, true, false],
        [false, false, true]] : Lexicon).getD 0 []).getD 0 false = true →
      ((signals_for_r (([[true, false, false], [false, true, false],
          [false, false, true]] : Lexicon).getD 0 [])).length < 3 →
        list1_lit_spkr 0 0 [[true, false, false], [false, true, false],
            [false, false, true]] [1, 0, 0] =
          ([1, 0, 0] : List ℚ).getD 0 0 *
            ((1 - noise) / ((signals_for_r (([[true, false, false],
              [false, true, false], [false, false, true]] : Lexicon).getD 0 [])).length : ℚ))) ∧
      ((signals_for_r (([[true, false, false], [false, true, false],
          [false, false, true]] : Lexicon).getD 0 [])).length = 3 →
        list1_lit_spkr 0 0 [[true, false, false], [false, true, false],
            [false, false, true]] [1, 0, 0] =
          ([1, 0, 0] : List ℚ).getD 0 0 *
            (1 / ((signals_for_r (([[true, false, false],
              [false, true, false], [false, false, true]] : Lexicon).getD 0 [])).length : ℚ)))) ∧
    ((([[true, false, false], [false, true, false],
        [false, false, true]] : Lexicon).getD 0 []).getD 0 false = false →
      list1_lit_spkr 0 0 [[true, false, false], [false, true, false],
          [false, false, true]] [1, 0, 0] =
        ([1, 0, 0] : List ℚ).getD 0 0 *
          (noise / (3 - ((signals_for_r (([[true, false, false],
            [false, true, false], [false, false, true]] : Lexicon).getD 0 [])).length : ℚ))))) :=
  ⟨by norm_num, by decide,
    claim_C3 0 0 [[true, false, false], [false, true, false], [false, false, true]]
      [1, 0, 0] (by norm_num) (by decide)⟩

/-- C8: for a meaning whose row has at least one usable signal, the literal
listener's values summed over all signals equal `ref[meaning]` (log space:
summing `exp (literal_listener - ref[meaning])` over signals gives 1). -/
theorem claim_C8 (meaning : ℕ) (language : Lexicon) (ref_distribution : List ℚ)
    (hrow : 1 ≤ (signals_for_r (language.getD meaning [])).length) :
    (signalsIdx.map (fun s =>
      list1_lit_spkr s meaning language ref_distribution)).sum =
      ref_distribution.getD meaning 0 := by
  cases h0 : (language.getD meaning []).getD 0 false <;>
    cases h1 : (language.getD meaning []).getD 1 false <;>
      cases h2 : (language.getD meaning []).getD 2 false
  all_goals simp only [List.getD_eq_getElem?_getD] at h0 h1 h2
  all_goals try (exfalso; revert hrow; simp [signals_for_r, meanings, List.range_succ, h0, h1, h2]; done)
  all_goals
    simp [signalsIdx, list1_lit_spkr, signals_for_r, meanings,
      List.range_succ, h0, h1, h2, num_signals, noise]
  all_goals ring_nf

/-- C8 witness: instantiation at a lexicon whose first row is `[1, 1, 0]`. -/
theorem claim_C8_witness :
    1 ≤ (signals_for_r (([[true, true, false], [false, true, false],
        [false, false, true]] : Lexicon).getD 0 [])).length ∧
    (signalsIdx.map (fun s => list1_lit_spkr s 0
      [[true, true, false], [false, true, false], [false, false, true]]
      [1/2, 1/4, 1/4])).sum = ([1/2, 1/4, 1/4] : List ℚ).getD 0 0 :=
  ⟨by decide, claim_C8 0 [[true, true, false], [false, true, false],
    [false, false, true]] [1/2, 1/4, 1/4] (by decide)⟩

/-- C6: calc_mental_state signals an explicit error exactly when some context
entry is at distance at least 1 from the perspective; otherwise it returns
the normalization of the weights `1 - |perspective - c|` (log space:
`log (1 - |perspective - c|)`), a distribution summing to 1 for a nonempty
context. -/
theorem claim_C6 (perspective : ℚ) (context : List ℚ) :
    (calc_mental_state perspective context = none ↔
      ∃ c ∈ context, 1 ≤ |perspective - c|) ∧
    ((∀ c ∈ context, |perspective - c| < 1) →
      calc_mental_state perspective context =
        some (normalize_logprobs (context.map (fun o => 1 - |perspective - o|))) ∧
      (context ≠ [] → ∀ r, calc_mental_state perspective context = some r →
        r.sum = 1)) := by
  refine ⟨calc_mental_state_eq_none, fun hvalid => ⟨?_, fun hne r hr => ?_⟩⟩
  · simp only [calc_mental_state]
    rw [if_pos]
    intro w hw
    rcases List.mem_map.mp hw with ⟨c, hc, rfl⟩
    have := hvalid c hc
    linarith
  · exact ((calc_mental_state_entries hr).2.2 hne).2

/-- C6 witness: perspective 1 with context `[1/10]` is valid and yields a
distribution summing to 1; the error case is exercised by the ↔. -/
theorem claim_C6_witness :
    (∀ c ∈ ([1/10] : List ℚ), |(1 : ℚ) - c| < 1) ∧
    calc_mental_state 1 [1/10] =
      some (normalize_logprobs (([1/10] : List ℚ).map (fun o => 1 - |(1 : ℚ) - o|))) ∧
    (calc_mental_state 1 [3/2] = none ↔ ∃ c ∈ ([3/2] : List ℚ), 1 ≤ |(1 : ℚ) - c|) := by
  have h1 : ∀ c ∈ ([1/10] : List ℚ), |(1 : ℚ) - c| < 1 := by
    intro c hc
    rcases List.mem_singleton.mp hc with rfl
    rw [abs_of_nonneg (by norm_num)]
    norm_num
  exact ⟨h1, ((claim_C6 1 [1/10]).2 h1).1, (claim_C6 1 [3/2]).1⟩

theorem list_eq_three {α : Type} (l : List α) (h : l.length = 3) :
    ∃ a b c, l = [a, b, c] := by
  match l, h with
  | [a, b, c], _ => exact ⟨a, b, c, rfl⟩

/-- The identity lexicon, used as a concrete input. -/
def lexC2 : Lexicon := [[true, false, false], [false, true, false], [false, false, true]]

/-- A concrete reference distribution. -/
def refC2 : List ℚ := [1/2, 1/4, 1/4]

/-- Concrete value of the pragmatic-speaker distribution at `lexC2`, `refC2`. -/
theorem spkr1_concrete : spkr1_production_probs 0 lexC2 refC2 =
    [472729139/472847777, 59319/472847777, 59319/472847777] := by
  norm_num [spkr1_production_probs, list1_perception_matrix, list1_lit_spkr,
    normalize_logprobs, softmax, signalsIdx, meanings, signals_for_r,
    num_signals, noise, List.range_succ, lexC2, refC2, List.filter_cons]

/-- C2 counterexample: for signal index 1 the value returned by `list2_spkr1`
differs from the claim's formula, which uses the raw (un-noisified) output
of `spkr1_production_probs` in every term.  The source mutates the vector in
place, so the entry for signal 1 is computed from the already-noisified
entry for signal 0. -/
theorem claim_C2_counterexample :
    list2_spkr1 1 0 lexC2 refC2 ≠
      refC2.getD 0 0 * (rawNoisy (spkr1_production_probs 0 lexC2 refC2)).getD 1 0 := by
  simp only [list2_spkr1, rawNoisy, spkr1_concrete]
  norm_num [noisify_step, signalsIdx, num_signals, noise, List.range_succ,
    refC2, List.filter_cons]

/-- C2 amended: `list2_spkr1` returns `ref_distribution[meaning]` plus (here:
times) the noisy production value of the observed signal, where the noisy
vector is computed sequentially in place over signals `s = 0, 1, 2`: each
entry is the noise mixture
`(1-noise) * v[s] + noise * (sum of the other entries of the current vector) / (num_signals - 1)`
(log space: `logsumexp([log(1-noise) + v[s], log(noise) + logsumexp(v[others]) - log(num_signals-1)])`),
so the entries for signals 1 and 2 use the already-noisified entries of the
earlier signals; only the entry for signal 0 is built from the raw output of
`spkr1_production_probs` alone. -/
theorem claim_C2_amended (signal meaning : ℕ) (language : Lexicon)
    (ref_distribution : List ℚ) (hsig : signal < 3) :
    ∃ p0 p1 p2 : ℚ,
      spkr1_production_probs meaning language ref_distribution = [p0, p1, p2] ∧
      (let n0 := (1 - noise) * p0 + noise * (p1 + p2) / ((num_signals : ℚ) - 1)
       let n1 := (1 - noise) * p1 + noise * (n0 + p2) / ((num_signals : ℚ) - 1)
       let n2 := (1 - noise) * p2 + noise * (n0 + n1) / ((num_signals : ℚ) - 1)
       list2_spkr1 signal meaning language ref_distribution =
         ref_distribution.getD meaning 0 * [n0, n1, n2].getD signal 0) := by
  rcases list_eq_three _ (spkr1_length meaning language ref_distribution)
    with ⟨p0, p1, p2, hp⟩
  refine ⟨p0, p1, p2, hp, ?_⟩
  simp only [list2_spkr1, hp]
  simp only [List.length_cons, List.length_nil, List.range_succ, List.range_zero,
    List.nil_append, List.cons_append, List.foldl_cons, List.foldl_nil]
  simp only [noisify_step, List.length_set, List.length_cons, List.length_nil,
    List.range_succ, List.range_zero, List.nil_append, List.cons_append,
    List.filter_cons, List.filter_nil]
  interval_cases signal <;> simp <;> exact Or.inl (by ring)

/-- C2 amended witness: instantiation at signal 1, meaning 0, the identity
lexicon and the concrete reference distribution `[1/2, 1/4, 1/4]`. -/
theorem claim_C2_amended_witness :
    (1 : ℕ) < 3 ∧
    ∃ p0 p1 p2 : ℚ,
      spkr1_production_probs 0 lexC2 refC2 = [p0, p1, p2] ∧
      (let n0 := (1 - noise) * p0 + noise * (p1 + p2) / ((num_signals : ℚ) - 1)
       let n1 := (1 - noise) * p1 + noise * (n0 + p2) / ((num_signals : ℚ) - 1)
       let n2 := (1 - noise) * p2 + noise * (n0 + n1) / ((num_signals : ℚ) - 1)
       list2_spkr1 1 0 lexC2 refC2 = refC2.getD 0 0 * [n0, n1, n2].getD 1 0) :=
  ⟨by norm_num, claim_C2_amended 1 0 lexC2 refC2 (by norm_num)⟩

theorem foldl_const_last {α β : Type} (f : β → α) (l : List β) (init : α)
    (last : β) (h : l.getLast? = some last) :
    l.foldl (fun _ s => f s) init = f last := by
  induction l generalizing init with
  | nil => simp at h
  | cons a t ih =>
    rw [List.foldl_cons]
    cases t with
    | nil =>
      have ha : a = last := by simpa using h
      rw [List.foldl_nil, ha]
    | cons b t2 =>
      exact ih (f a) (by simpa using h)

theorem filter_ne_nonempty (last : ℕ) :
    signalsIdx.filter (fun t => t ≠ last) ≠ [] := by
  rcases Nat.lt_or_ge last 3 with h | h
  · interval_cases last <;> decide
  · have heq : signalsIdx.filter (fun t => t ≠ last) = signalsIdx := by
      refine List.filter_eq_self.mpr ?_
      intro a ha
      simp only [signalsIdx, List.mem_cons, List.not_mem_nil, or_false] at ha
      simp only [decide_eq_true_eq]
      rcases ha with rfl | rfl | rfl <;> omega
    rw [heq]
    simp [signalsIdx]

theorem getD_mod_mem {α : Type} (l : List α) (d : α) (i : ℕ) (h : l ≠ []) :
    l.getD (i % l.length) d ∈ l := by
  have hlen : 0 < l.length := List.length_pos.mpr h
  have hm : i % l.length < l.length := Nat.mod_lt i hlen
  rw [List.getD_eq_getElem?_getD, List.getElem?_eq_getElem hm, Option.getD_some]
  exact List.getElem_mem hm

/-- A lexicon whose first row has two usable signals, used to exhibit the
substitution bug of `produce`. -/
def lexC5 : Lexicon := [[true, true, false], [false, true, false], [false, false, true]]

/-- C5 counterexample: for the row `[1, 1, 0]` the winner-take-all choice
(tie broken towards index 0) is signal 0, the substitution branch is taken
(`noiseFires = true` and the usable-signal count 2 differs from 3), yet the
produced signal equals the winner-take-all signal 0: the source's loop
`for s in signals_for_r: other_signals = signals[np.where(signals != s)]`
reassigns from the original array, so only the last usable signal (index 1)
is excluded from the substitution candidates, not the selected signal. -/
theorem claim_C5_counterexample :
    wta (lexC5.getD 0 []) 0 = 0 ∧
    (signals_for_r (lexC5.getD 0 [])).length ≠ 3 ∧
    produce (lexC5, 0, 0) [0, 0, 0] 0 0 true 0 0 = some (0, [0, 0, 0]) := by
  refine ⟨by decide, by decide, ?_⟩
  have hcalc : calc_mental_state 0 [0, 0, 0] = some [1/3, 1/3, 1/3] := by
    norm_num [calc_mental_state, normalize_logprobs]
  simp [produce, hcalc, lexC5, wta, signals_for_r, meanings, signalsIdx,
    List.range_succ, List.filter_cons]

/-- C5 amended: at pragmatic level 0 `produce` picks the winner-take-all
signal of the lexicon row for the sampled meaning; only when the noise draw
fires and the usable-signal count differs from the alphabet size does it
replace it with a signal drawn uniformly from the signals other than the
LAST usable signal of the row — a set that can contain the winner-take-all
signal itself when the row has more than one usable signal. -/
theorem claim_C5_amended (language : Lexicon) (perspective : ℚ)
    (context : List ℚ) (meaningChoice tie substChoice sigChoice : ℕ)
    (noiseFires : Bool) (ms : List ℚ)
    (hms : calc_mental_state perspective context = some ms)
    (hne : signals_for_r (language.getD meaningChoice []) ≠ []) :
    (¬ (noiseFires = true ∧
        (signals_for_r (language.getD meaningChoice [])).length ≠ 3) →
      produce (language, perspective, 0) context meaningChoice tie noiseFires
          substChoice sigChoice =
        some (signalsIdx.getD (wta (language.getD meaningChoice []) tie) 0, context)) ∧
    ((noiseFires = true ∧
        (signals_for_r (language.getD meaningChoice [])).length ≠ 3) →
      ∃ last sub,
        (signals_for_r (language.getD meaningChoice [])).getLast? = some last ∧
        produce (language, perspective, 0) context meaningChoice tie noiseFires
            substChoice sigChoice = some (sub, context) ∧
        sub ∈ signalsIdx.filter (fun t => t ≠ last)) := by
  constructor
  · intro hnb
    simp only [produce, hms]
    simp
    intro h1 h2
    rw [List.getD_eq_getElem?_getD] at hnb
    exact absurd ⟨h1, h2⟩ hnb
  · intro hb
    obtain ⟨hb1, hb2⟩ := hb
    have hlast : (signals_for_r (language.getD meaningChoice [])).getLast? =
        some ((signals_for_r (language.getD meaningChoice [])).getLast hne) :=
      List.getLast?_eq_getLast _ hne
    have hfold : (signals_for_r (language.getD meaningChoice [])).foldl
        (fun _ s => signalsIdx.filter (fun t => t ≠ s)) signalsIdx =
          signalsIdx.filter (fun t => t ≠
            (signals_for_r (language.getD meaningChoice [])).getLast hne) :=
      foldl_const_last _ _ _ _ hlast
    refine ⟨(signals_for_r (language.getD meaningChoice [])).getLast hne,
      (signalsIdx.filter (fun t => t ≠
        (signals_for_r (language.getD meaningChoice [])).getLast hne)).getD
        (substChoice % (signalsIdx.filter (fun t => t ≠
          (signals_for_r (language.getD meaningChoice [])).getLast hne)).length) 0,
      hlast, ?_, ?_⟩
    · simp only [produce, hms]
      simp only [ne_eq, decide_not] at hfold
      simp only [List.getD_eq_getElem?_getD] at hb2 hfold
      simp [hb1, hb2, hfold]
    · exact getD_mod_mem _ _ _ (filter_ne_nonempty _)

/-- C5 amended witness: instantiation at `lexC5`, perspective 0, context
`[0, 0, 0]`, meaning 0, with the noise draw firing. -/
theorem claim_C5_amended_witness :
    calc_mental_state 0 [0, 0, 0] = some [1/3, 1/3, 1/3] ∧
    signals_for_r (lexC5.getD 0 []) ≠ [] ∧
    ((¬ ((true : Bool) = true ∧
        (signals_for_r (lexC5.getD 0 [])).length ≠ 3) →
      produce (lexC5, 0, 0) [0, 0, 0] 0 0 true 0 0 =
        some (signalsIdx.getD (wta (lexC5.getD 0 []) 0) 0, [0, 0, 0])) ∧
    (((true : Bool) = true ∧
        (signals_for_r (lexC5.getD 0 [])).length ≠ 3) →
      ∃ last sub,
        (signals_for_r (lexC5.getD 0 [])).getLast? = some last ∧
        produce (lexC5, 0, 0) [0, 0, 0] 0 0 true 0 0 = some (sub, [0, 0, 0]) ∧
        sub ∈ signalsIdx.filter (fun t => t ≠ last))) := by
  have hcalc : calc_mental_state 0 [0, 0, 0] = some [1/3, 1/3, 1/3] := by
    norm_num [calc_mental_state, normalize_logprobs]
  exact ⟨hcalc, by decide,
    claim_C5_amended lexC5 0 [0, 0, 0] 0 0 0 0 true [1/3, 1/3, 1/3] hcalc (by decide)⟩

theorem range_map_getD {α : Type} (n i : ℕ) (g : ℕ → α) (d : α) (h : i < n) :
    ((List.range n).map g).getD i d = g i := by
  rw [List.getD_eq_getElem?_getD,
    List.getElem?_eq_getElem (by simpa using h), Option.getD_some]
  simp

theorem normalize_getD (v : List ℚ) {i : ℕ} (hi : i < v.length) :
    (normalize_logprobs v).getD i 0 = v.getD i 0 / v.sum := by
  unfold normalize_logprobs
  rw [List.getD_eq_getElem?_getD,
    List.getElem?_eq_getElem (by simpa using hi), Option.getD_some,
    List.getElem_map, List.getD_eq_getElem?_getD,
    List.getElem?_eq_getElem hi, Option.getD_some]

theorem weights_sum_pos (hyps : List Hypothesis) (posterior : List ℚ)
    (signal : ℕ) (context : List ℚ) (refs : ℕ → List ℚ)
    (href : ∀ i < posterior.length,
      calc_mental_state (hyps.getD i ([], 0, 0)).2.1 context = some (refs i))
    (hsig : signal < 3) (hctx : context ≠ [])
    (hpos : ∀ x ∈ posterior, 0 ≤ x) (hex : ∃ x ∈ posterior, 0 < x) :
    0 < ((List.range posterior.length).map (fun i =>
      posterior.getD i 0 *
        likelihood (hyps.getD i ([], 0, 0)) signal (refs i))).sum := by
  have hnonneg : ∀ x ∈ (List.range posterior.length).map (fun i =>
      posterior.getD i 0 * likelihood (hyps.getD i ([], 0, 0)) signal (refs i)),
      0 ≤ x := by
    intro x hx
    rcases List.mem_map.mp hx with ⟨i, hi, rfl⟩
    have hent := calc_mental_state_entries (href i (List.mem_range.mp hi))
    exact mul_nonneg (getD_nonneg hpos i)
      (likelihood_nonneg _ _ _ (fun m => getD_nonneg hent.2.1 m))
  rcases hex with ⟨x, hxmem, hxpos⟩
  rcases List.getElem_of_mem hxmem with ⟨i, hi, hieq⟩
  have hPi : posterior.getD i 0 = x := by
    rw [List.getD_eq_getElem?_getD, List.getElem?_eq_getElem hi,
      Option.getD_some, hieq]
  have hent := calc_mental_state_entries (href i hi)
  have hl : 0 < likelihood (hyps.getD i ([], 0, 0)) signal (refs i) :=
    likelihood_pos _ _ _ hsig (hent.2.2 hctx).1 (fun m => getD_nonneg hent.2.1 m)
  refine sum_pos_of_mem hnonneg
    (List.mem_map.mpr ⟨i, List.mem_range.mpr hi, rfl⟩) ?_
  rw [hPi]
  exact mul_pos hxpos hl

/-- C1: `update_posterior` computes, for each hypothesis `i`, the reference
distribution via the mental-state model, then for every meaning the listener
value using `list1_lit_spkr` when the hypothesis's pragmatic level is 0 and
`list2_spkr1` when it is 1, marginalizes over meanings (log space:
`logsumexp`; probability space: sum), multiplies with (log space: adds to)
`posterior[i]`, and renormalizes the vector with `normalize_logprobs`. -/
theorem claim_C1 (hyps : List Hypothesis) (posterior : List ℚ) (signal : ℕ)
    (context : List ℚ) (refs : ℕ → List ℚ)
    (href : ∀ i < posterior.length,
      calc_mental_state (hyps.getD i ([], 0, 0)).2.1 context = some (refs i))
    (hlvl : ∀ i < posterior.length,
      (hyps.getD i ([], 0, 0)).2.2 = 0 ∨ (hyps.getD i ([], 0, 0)).2.2 = 1) :
    update_posterior hyps posterior signal context =
      some (normalize_logprobs ((List.range posterior.length).map (fun i =>
        posterior.getD i 0 *
          (meanings.map (fun m =>
            if (hyps.getD i ([], 0, 0)).2.2 = 0
            then list1_lit_spkr signal m (hyps.getD i ([], 0, 0)).1 (refs i)
            else list2_spkr1 signal m (hyps.getD i ([], 0, 0)).1 (refs i))).sum))) := by
  rw [update_posterior_eq hyps posterior signal context refs href]
  refine congrArg some (congrArg normalize_logprobs (List.map_congr_left ?_))
  intro i hi
  rcases hlvl i (List.mem_range.mp hi) with h0 | h1
  · simp only [List.getD_eq_getElem?_getD, Prod.mk_zero_zero] at h0
    simp [likelihood, h0]
  · simp only [List.getD_eq_getElem?_getD, Prod.mk_zero_zero] at h1
    simp [likelihood, h1]

/-- C4: whenever `update_posterior` returns a vector, that vector is
normalized: its entries (probability space) sum to 1 — log space: the
log-sum-exp of the returned log-posterior is 0.  Hypotheses: the observed
signal is in the alphabet, the context is nonempty, and the input posterior
is a meaningful log-probability vector (probability space: entries
nonnegative, at least one positive). -/
theorem claim_C4 (hyps : List Hypothesis) (posterior : List ℚ) (signal : ℕ)
    (context : List ℚ) (v : List ℚ) (hsig : signal < 3) (hctx : context ≠ [])
    (hpos : ∀ x ∈ posterior, 0 ≤ x) (hex : ∃ x ∈ posterior, 0 < x)
    (hv : update_posterior hyps posterior signal context = some v) :
    v.sum = 1 := by
  cases hm : (List.range posterior.length).mapM
      (hyp_update hyps posterior signal context) with
  | none =>
    exfalso
    unfold update_posterior at hv
    rw [hm] at hv
    exact absurd hv (by simp [Bind.bind, Option.bind])
  | some ys =>
    have hsome : ∀ i, i < posterior.length → ∃ r,
        calc_mental_state (hyps.getD i ([], 0, 0)).2.1 context = some r := by
      intro i hi
      rcases exists_of_mapM_eq_some _ _ _ hm i (List.mem_range.mpr hi) with ⟨w, hw⟩
      rcases hyp_update_some hw with ⟨r, hr, _⟩
      exact ⟨r, hr⟩
    choose refs hrefs using hsome
    have href : ∀ i < posterior.length,
        calc_mental_state (hyps.getD i ([], 0, 0)).2.1 context =
          some (if h : i < posterior.length then refs i h else []) := by
      intro i hi
      rw [dif_pos hi]
      exact hrefs i hi
    rw [update_posterior_eq hyps posterior signal context _ href] at hv
    rw [← (Option.some.injEq _ _).mp hv]
    exact normalize_logprobs_sum _ (ne_of_gt
      (weights_sum_pos hyps posterior signal context _ href hsig hctx hpos hex))

/-- C7: applying `update_posterior` twice with the same observation equals
the closed-form doubled-evidence update: normalize the input posterior
multiplied by the square of the per-hypothesis marginal likelihood (log
space: the posterior plus twice the log marginal likelihood, where the log
marginal likelihood is the logsumexp over meanings of the listener value). -/
theorem claim_C7 (hyps : List Hypothesis) (posterior : List ℚ) (signal : ℕ)
    (context : List ℚ) (refs : ℕ → List ℚ)
    (href : ∀ i < posterior.length,
      calc_mental_state (hyps.getD i ([], 0, 0)).2.1 context = some (refs i))
    (hsig : signal < 3) (hctx : context ≠ [])
    (hpos : ∀ x ∈ posterior, 0 ≤ x) (hex : ∃ x ∈ posterior, 0 < x) :
    (update_posterior hyps posterior signal context).bind
        (fun p1 => update_posterior hyps p1 signal context) =
      some (normalize_logprobs ((List.range posterior.length).map (fun i =>
        posterior.getD i 0 *
          likelihood (hyps.getD i ([], 0, 0)) signal (refs i) ^ 2))) := by
  have hS : 0 < ((List.range posterior.length).map (fun i =>
      posterior.getD i 0 *
        likelihood (hyps.getD i ([], 0, 0)) signal (refs i))).sum :=
    weights_sum_pos hyps posterior signal context refs href hsig hctx hpos hex
  rw [update_posterior_eq hyps posterior signal context refs href, Option.some_bind]
  have hlen : (normalize_logprobs ((List.range posterior.length).map (fun i =>
      posterior.getD i 0 *
        likelihood (hyps.getD i ([], 0, 0)) signal (refs i)))).length =
      posterior.length := by
    rw [normalize_logprobs_length, List.length_map, List.length_range]
  rw [update_posterior_eq hyps _ signal context refs (by rw [hlen]; exact href)]
  refine congrArg some ?_
  rw [hlen]
  have hstep : (List.range posterior.length).map (fun i =>
      (normalize_logprobs ((List.range posterior.length).map (fun j =>
        posterior.getD j 0 *
          likelihood (hyps.getD j ([], 0, 0)) signal (refs j)))).getD i 0 *
        likelihood (hyps.getD i ([], 0, 0)) signal (refs i)) =
      ((List.range posterior.length).map (fun i =>
        posterior.getD i 0 *
          likelihood (hyps.getD i ([], 0, 0)) signal (refs i) ^ 2)).map
        (fun x => x * (((List.range posterior.length).map (fun j =>
          posterior.getD j 0 *
            likelihood (hyps.getD j ([], 0, 0)) signal (refs j))).sum)⁻¹) := by
    rw [List.map_map]
    refine List.map_congr_left ?_
    intro i hi
    have hi' := List.mem_range.mp hi
    have hgd : (normalize_logprobs ((List.range posterior.length).map (fun j =>
        posterior.getD j 0 *
          likelihood (hyps.getD j ([], 0, 0)) signal (refs j)))).getD i 0 =
        (posterior.getD i 0 *
          likelihood (hyps.getD i ([], 0, 0)) signal (refs i)) /
          ((List.range posterior.length).map (fun j =>
            posterior.getD j 0 *
              likelihood (hyps.getD j ([], 0, 0)) signal (refs j))).sum := by
      rw [normalize_getD _ (by simpa using hi'),
        range_map_getD _ _ _ _ hi']
    rw [hgd]
    simp only [Function.comp_apply]
    rw [div_eq_mul_inv]
    ring
  rw [hstep, normalize_logprobs_scale _ _ (inv_ne_zero (ne_of_gt hS))]

/-- C10: the `update_posterior` loop, run in the explicit-state model in
which every array write is visible, never writes to the input posterior
array: the `posterior` component of the final state equals the input. -/
theorem claim_C10 (hyps : List Hypothesis) (posterior : List ℚ) (signal : ℕ)
    (context : List ℚ) (st : UPState)
    (h : update_posterior_run hyps posterior signal context = some st) :
    st.posterior = posterior :=
  foldlM_body_preserves hyps signal context _ _ _ h

/-! ### Concrete inputs for the update-posterior witnesses -/

/-- A one-hypothesis list: the identity lexicon, perspective 1, level 0. -/
def hyps1 : List Hypothesis := [(lexC2, 1, 0)]

/-- A concrete context. -/
def ctx1 : List ℚ := [1/10, 2/10, 9/10]

/-- The mental state for perspective 1 in `ctx1`. -/
def ref1 : List ℚ := [1/12, 1/6, 3/4]

theorem hcalc1 : calc_mental_state 1 ctx1 = some ref1 := by
  norm_num [calc_mental_state, normalize_logprobs, ctx1, ref1, abs]

theorem likelihood1 : likelihood (lexC2, 1, 0) 0 ref1 = 49/480 := by
  norm_num [likelihood, meanings, list1_lit_spkr, signals_for_r, lexC2, ref1,
    noise, num_signals, List.range_succ, List.filter_cons]

theorem hupdate1 : update_posterior hyps1 [1] 0 ctx1 = some [1] := by
  have h := update_posterior_eq hyps1 [1] 0 ctx1 (fun _ => ref1)
    (by
      intro i hi
      have h0 : i = 0 := by simpa using hi
      subst h0
      exact hcalc1)
  rw [h]
  simp [hyps1, List.range_succ]
  rw [likelihood1]
  norm_num [normalize_logprobs]

theorem hyp01 : hyp_update hyps1 [1] 0 ctx1 0 = some (49/480) := by
  rw [hyp_update_eq hyps1 [1] 0 ctx1 0 ref1 hcalc1]
  simp [hyps1]
  rw [likelihood1]

theorem hrun1 : update_posterior_run hyps1 [1] 0 ctx1 = some ⟨[1], [49/480]⟩ := by
  unfold update_posterior_run
  have hr : List.range ([1] : List ℚ).length = [0] := rfl
  rw [hr, List.foldlM_cons]
  have hbody : update_posterior_body hyps1 0 ctx1
      ⟨[1], List.replicate ([1] : List ℚ).length 0⟩ 0 = some ⟨[1], [49/480]⟩ := by
    unfold update_posterior_body
    rw [hyp01]
    rfl
  rw [hbody]
  rfl

theorem href1 : ∀ i < ([1] : List ℚ).length,
    calc_mental_state ((hyps1.getD i ([], 0, 0)).2.1) ctx1 =
      some ((fun _ => ref1) i) := by
  intro i hi
  have h0 : i = 0 := by simpa using hi
  subst h0
  exact hcalc1

theorem hlvl1 : ∀ i < ([1] : List ℚ).length,
    (hyps1.getD i ([], 0, 0)).2.2 = 0 ∨ (hyps1.getD i ([], 0, 0)).2.2 = 1 := by
  intro i hi
  have h0 : i = 0 := by simpa using hi
  subst h0
  left
  rfl

/-- C1 witness: instantiation at a one-hypothesis list (identity lexicon,
perspective 1, level 0), posterior `[1]`, signal 0, and context `ctx1`. -/
theorem claim_C1_witness :
    (∀ i < ([1] : List ℚ).length,
      calc_mental_state ((hyps1.getD i ([], 0, 0)).2.1) ctx1 =
        some ((fun _ => ref1) i)) ∧
    (∀ i < ([1] : List ℚ).length,
      (hyps1.getD i ([], 0, 0)).2.2 = 0 ∨ (hyps1.getD i ([], 0, 0)).2.2 = 1) ∧
    update_posterior hyps1 [1] 0 ctx1 =
      some (normalize_logprobs ((List.range ([1] : List ℚ).length).map (fun i =>
        ([1] : List ℚ).getD i 0 *
          (meanings.map (fun m =>
            if (hyps1.getD i ([], 0, 0)).2.2 = 0
            then list1_lit_spkr 0 m (hyps1.getD i ([], 0, 0)).1 ((fun _ => ref1) i)
            else list2_spkr1 0 m (hyps1.getD i ([], 0, 0)).1 ((fun _ => ref1) i))).sum))) :=
  ⟨href1, hlvl1, claim_C1 hyps1 [1] 0 ctx1 (fun _ => ref1) href1 hlvl1⟩

/-- C4 witness: the update at the concrete input returns `[1]`, which sums to 1. -/
theorem claim_C4_witness :
    (0 : ℕ) < 3 ∧ ctx1 ≠ [] ∧ (∀ x ∈ ([1] : List ℚ), 0 ≤ x) ∧
    (∃ x ∈ ([1] : List ℚ), 0 < x) ∧
    update_posterior hyps1 [1] 0 ctx1 = some [1] ∧ ([1] : List ℚ).sum = 1 :=
  ⟨by norm_num, by simp [ctx1], by simp, ⟨1, by simp, by norm_num⟩, hupdate1,
    claim_C4 hyps1 [1] 0 ctx1 [1] (by norm_num) (by simp [ctx1]) (by simp)
      ⟨1, by simp, by norm_num⟩ hupdate1⟩

/-- C7 witness: the double update at the concrete input equals the
doubled-evidence closed form. -/
theorem claim_C7_witness :
    (∀ i < ([1] : List ℚ).length,
      calc_mental_state ((hyps1.getD i ([], 0, 0)).2.1) ctx1 =
        some ((fun _ => ref1) i)) ∧
    (0 : ℕ) < 3 ∧ ctx1 ≠ [] ∧ (∀ x ∈ ([1] : List ℚ), 0 ≤ x) ∧
    (∃ x ∈ ([1] : List ℚ), 0 < x) ∧
    (update_posterior hyps1 [1] 0 ctx1).bind
        (fun p1 => update_posterior hyps1 p1 0 ctx1) =
      some (normalize_logprobs ((List.range ([1] : List ℚ).length).map (fun i =>
        ([1] : List ℚ).getD i 0 *
          likelihood (hyps1.getD i ([], 0, 0)) 0 ((fun _ => ref1) i) ^ 2))) :=
  ⟨href1, by norm_num, by simp [ctx1], by simp, ⟨1, by simp, by norm_num⟩,
    claim_C7 hyps1 [1] 0 ctx1 (fun _ => ref1) href1 (by norm_num) (by simp [ctx1])
      (by simp) ⟨1, by simp, by norm_num⟩⟩

/-- C10 witness: a concrete run of the explicit-state loop; the `posterior`
component of the final state is the unchanged input. -/
theorem claim_C10_witness :
    update_posterior_run hyps1 [1] 0 ctx1 = some ⟨[1], [49/480]⟩ ∧
    (UPState.mk [1] [49/480]).posterior = ([1] : List ℚ) :=
  ⟨hrun1, claim_C10 hyps1 [1] 0 ctx1 ⟨[1], [49/480]⟩ hrun1⟩

end SimPrag
